import Mathlib

/-!
Verification of the Mosaic Compositor of `src/MosaicMaker.rs` (repository
Maxoplata/MosaicMaker) against its natural-language specification.

The program is embedded shallowly:

* An `Image` is a width, a height and a total pixel function into RGBA
  quadruples of 8-bit channels (modelled as `Nat`), matching the spec's data
  model of a decoded image and the `ImageBuffer`/`DynamicImage` values of the
  code.
* All `u32` arithmetic of the code is `Nat` arithmetic reduced `% 2^32`
  (wrapping semantics) at the points where the code multiplies or offsets.
* The image operations the code calls from the `image` crate version 0.23
  (`imageops::overlay`, `Rgba::blend`, `DynamicImage::thumbnail`) are not part
  of the repository, so they are embedded here from that crate's published
  algorithms; the crate computes the alpha blend in `f32` and the resize
  dimensions in `f64`, which this embedding performs in exact rational
  arithmetic (`ℚ`), with the final cast to a channel value taken as truncation
  (`Int.floor`), exactly as the crate's `NumCast` cast truncates.
* The command-line front half of `main` (lines 17-35) is embedded as a step
  function from the argument list to either an early process exit or the
  configuration it proceeds with; I/O (decoding the input, saving the output)
  is an external collaborator and out of scope, as the spec states.
-/

namespace MosaicMaker

/-- One RGBA pixel: four 8-bit channels, modelled as natural numbers
(`image::Rgba<u8>` in the code). -/
structure Rgba where
  r : Nat
  g : Nat
  b : Nat
  a : Nat
deriving DecidableEq

/-- A decoded image: dimensions plus a total pixel function.  The code's
buffers are only ever read inside their bounds, so a total function is a
faithful carrier. -/
structure Image where
  width : Nat
  height : Nat
  pix : Nat → Nat → Rgba

/-- The modulus of `u32` arithmetic. -/
def u32Size : Nat := 2 ^ 32

/-- Fully transparent black, the value `ImageBuffer::new` fills pixels with. -/
def transparent : Rgba := ⟨0, 0, 0, 0⟩

/-- Embedding of `Rgba::blend` from the `image` crate (v0.23, `color.rs`):
source-over alpha compositing with premultiplication and unmultiplication.
The crate computes in `f32` after dividing the channels by 255; here the same
formulas are evaluated in exact rational arithmetic, and the final
`NumCast::from(max_t * v)` cast back to `u8` is the truncation `Int.floor`. -/
def blend (bg fg : Rgba) : Rgba :=
  let maxT : ℚ := 255
  let bgA : ℚ := (bg.a : ℚ) / maxT
  let fgA : ℚ := (fg.a : ℚ) / maxT
  let alphaFinal : ℚ := bgA + fgA - bgA * fgA
  if alphaFinal = 0 then bg else
  let bgRA : ℚ := ((bg.r : ℚ) / maxT) * bgA
  let bgGA : ℚ := ((bg.g : ℚ) / maxT) * bgA
  let bgBA : ℚ := ((bg.b : ℚ) / maxT) * bgA
  let fgRA : ℚ := ((fg.r : ℚ) / maxT) * fgA
  let fgGA : ℚ := ((fg.g : ℚ) / maxT) * fgA
  let fgBA : ℚ := ((fg.b : ℚ) / maxT) * fgA
  let outRA : ℚ := fgRA + bgRA * (1 - fgA)
  let outGA : ℚ := fgGA + bgGA * (1 - fgA)
  let outBA : ℚ := fgBA + bgBA * (1 - fgA)
  { r := (Int.floor (maxT * (outRA / alphaFinal))).toNat
    g := (Int.floor (maxT * (outGA / alphaFinal))).toNat
    b := (Int.floor (maxT * (outBA / alphaFinal))).toNat
    a := (Int.floor (maxT * alphaFinal)).toNat }

/-- Embedding of `imageops::overlay(bottom, top, ox, oy)` (v0.23): the top
image, cropped by `overlay_bounds` to the bottom image's extent with
saturating subtraction, is blended pixel by pixel onto the bottom image. -/
def overlay (bottom top : Image) (ox oy : Nat) : Image :=
  { width := bottom.width
    height := bottom.height
    pix := fun u v =>
      if ox ≤ u ∧ u < ox + min top.width (bottom.width - ox) ∧
         oy ≤ v ∧ v < oy + min top.height (bottom.height - oy)
      then blend (bottom.pix u v) (top.pix (u - ox) (v - oy))
      else bottom.pix u v }

/-- The flat colour derived from a source pixel: its RGB at fixed alpha 127,
as built by the closure at line 99 of `MosaicMaker.rs`. -/
def colorOf (p : Rgba) : Rgba := ⟨p.r, p.g, p.b, 127⟩

/-- The colour tile (lines 98-100): `ImageBuffer::from_fn(tile_size,
tile_size, |_, _| Rgba([r, g, b, 127]))`. -/
def colorTile (p : Rgba) (t : Nat) : Image :=
  { width := t, height := t, pix := fun _ _ => colorOf p }

/-- The freshly allocated canvas (line 86): `ImageBuffer::new(w, h)` is fully
transparent. -/
def mkCanvas (w h : Nat) : Image :=
  { width := w, height := h, pix := fun _ _ => transparent }

/-- Rounding half away from zero on a nonnegative rational, as `f64::round`
behaves on the nonnegative values that arise in `resize_dimensions`. -/
def roundQ (q : ℚ) : Nat := (Int.floor (q + 1 / 2)).toNat

/-- Ceiling of a nonnegative rational cast to `Nat`, as `f32::ceil` followed
by `as u32` behaves on the nonnegative values that arise in the sampler. -/
def ceilQ (q : ℚ) : Nat := (Int.ceil q).toNat

/-- Embedding of `image::math::utils::resize_dimensions(w, h, nw, nh, false)`
(v0.23): the largest size that fits within the `nw × nh` bounding box while
preserving the `w : h` aspect ratio, each axis at least 1.  The crate computes
the ratios in `f64`; here they are exact rationals.  The crate's guards
against results above `u32::MAX` are omitted: with `fill = false` the rounded
results are bounded by `max nw nh` and cannot reach them.  The degenerate
`w = 0` / `h = 0` branches mirror what the `f64` code yields when a ratio is
infinite (`nw/0`) or the product `0 * ∞` is NaN (rounded and cast to 0, then
raised to 1 by the `max`). -/
def resizeDimensions (w h nw nh : Nat) : Nat × Nat :=
  if w = 0 ∧ h = 0 then (1, 1)
  else if w = 0 then (1, max 1 (roundQ ((h : ℚ) * ((nh : ℚ) / (h : ℚ)))))
  else if h = 0 then (max 1 (roundQ ((w : ℚ) * ((nw : ℚ) / (w : ℚ)))), 1)
  else
    let ratio : ℚ := min ((nw : ℚ) / (w : ℚ)) ((nh : ℚ) / (h : ℚ))
    (max 1 (roundQ ((w : ℚ) * ratio)), max 1 (roundQ ((h : ℚ) * ratio)))

/-- Clamp as in `image::math::utils::clamp(a, lo, hi)` (for `lo ≤ hi`). -/
def clampNat (a lo hi : Nat) : Nat := max lo (min a hi)

/-- Average of the source pixels in the block `[left, right) × [bottom, top)`,
as `thumbnail_sample_block` computes it (channel sums divided by the pixel
count). -/
def sampleBlock (src : Image) (left right bottom top : Nat) : Rgba :=
  let xs := (List.range (right - left)).map (· + left)
  let ys := (List.range (top - bottom)).map (· + bottom)
  let cells := ys.flatMap (fun y => xs.map (fun x => src.pix x y))
  let n := (right - left) * (top - bottom)
  { r := (cells.map Rgba.r).sum / n
    g := (cells.map Rgba.g).sum / n
    b := (cells.map Rgba.b).sum / n
    a := (cells.map Rgba.a).sum / n }

/-- Embedding of the pixel content of `imageops::thumbnail` (v0.23): target
pixel `(u, v)` covers the source block whose bounds are computed from the
width and height ratios with ceiling and clamping, and averages it when the
block is nondegenerate in both axes.  The crate's remaining three branches
interpolate with the fractional offsets in `f32`; they arise only when the
clamped block is degenerate in an axis (upscaling past 2x).  Modelled from the
spec: the spec does not pin those interpolation weights (it only describes the
operation as a deterministic resize), so the degenerate branches are modelled
as sampling the nearest source pixel of the block; no theorem below depends on
a value produced by them. -/
def thumbPix (src : Image) (nw nh : Nat) (u v : Nat) : Rgba :=
  let xRatio : ℚ := (src.width : ℚ) / (nw : ℚ)
  let yRatio : ℚ := (src.height : ℚ) / (nh : ℚ)
  let leftF : ℚ := (u : ℚ) * xRatio
  let rightF : ℚ := leftF + xRatio
  let bottomF : ℚ := (v : ℚ) * yRatio
  let topF : ℚ := bottomF + yRatio
  let left := clampNat (ceilQ leftF) 0 (src.width - 1)
  let right := clampNat (ceilQ rightF) left src.width
  let bottom := clampNat (ceilQ bottomF) 0 (src.height - 1)
  let top := clampNat (ceilQ topF) bottom src.height
  if bottom ≠ top ∧ left ≠ right then sampleBlock src left right bottom top
  else src.pix (right - 1) (top - 1)

/-- Embedding of `DynamicImage::thumbnail(nw, nh)` followed by `to_rgba8()`
(line 80): the aspect-preserving dimensions, filled by the fast sampler.  The
crate returns a fresh transparent buffer when the source has a zero dimension;
`to_rgba8` is the identity on this RGBA model. -/
def thumbnail (src : Image) (nw nh : Nat) : Image :=
  let dims := resizeDimensions src.width src.height nw nh
  { width := dims.1
    height := dims.2
    pix := if src.width = 0 ∨ src.height = 0 then fun _ _ => transparent
           else thumbPix src dims.1 dims.2 }

/-- The pattern tile of line 80: `img_orig.thumbnail(tile_size, tile_size)`,
computed once. -/
def patternTile (src : Image) (t : Nat) : Image := thumbnail src t t

/-- One iteration of the per-pixel loop body (lines 91-103) for source pixel
`(x, y)`: overlay the pattern tile, then overlay the freshly built colour
tile, both at destination origin `(x * tile_size, y * tile_size)` (a `u32`
product, hence reduced `% 2^32`). -/
def placeTile (src tile : Image) (t : Nat) (c : Image) (x y : Nat) : Image :=
  overlay (overlay c tile (x * t % u32Size) (y * t % u32Size))
    (colorTile (src.pix x y) t) (x * t % u32Size) (y * t % u32Size)

/-- The per-pixel double loop (lines 89-105) run over a given pattern tile,
starting from the fresh canvas of line 86 whose dimensions are the `u32`
products `width * tile_size` and `height * tile_size`. -/
def composeWithTile (src tile : Image) (t : Nat) : Image :=
  (List.range src.width).foldl
    (fun c x => (List.range src.height).foldl
      (fun c2 y => placeTile src tile t c2 x y) c)
    (mkCanvas (src.width * t % u32Size) (src.height * t % u32Size))

/-- The Mosaic Compositor (lines 80-105): compute the pattern tile once, then
run the per-pixel loop with it. -/
def compose (src : Image) (t : Nat) : Image :=
  composeWithTile src (patternTile src t) t

/-- The source-pixel coordinates the nested loops of lines 89-90 visit, in
their order: `x` outer, `y` inner. -/
def coords (w h : Nat) : List (Nat × Nat) :=
  (List.range w).flatMap (fun x => (List.range h).map (fun y => (x, y)))

/-- The canvas rectangle belonging to source pixel `(x, y)`:
`[x·t, (x+1)·t) × [y·t, (y+1)·t)`. -/
def tileRect (t x y u v : Nat) : Prop :=
  x * t ≤ u ∧ u < (x + 1) * t ∧ y * t ≤ v ∧ v < (y + 1) * t

instance (t x y u v : Nat) : Decidable (tileRect t x y u v) := by
  unfold tileRect; infer_instance

/-- What one loop iteration does to the canvas value `p` at a point of its own
rectangle: blend the pattern-tile pixel over it when the (possibly smaller
than `t × t`) pattern tile covers the point, then blend the flat colour of the
source pixel over that. -/
def pointUpdate (src tile : Image) (t u v : Nat) (p : Rgba) : Rgba :=
  let q := if u % t < tile.width ∧ v % t < tile.height
           then blend p (tile.pix (u % t) (v % t)) else p
  blend q (colorOf (src.pix (u / t) (v / t)))

/-- Whitespace as trimmed from the tile-size argument (`str::trim`; the
ASCII whitespace characters suffice for the inputs considered here). -/
def isWhite (c : Char) : Bool :=
  c == ' ' || c == '\t' || c == '\n' || c == '\r'

/-- Trim whitespace from both ends of a character list (`str::trim`). -/
def trimChars (cs : List Char) : List Char :=
  ((cs.dropWhile isWhite).reverse.dropWhile isWhite).reverse

/-- Embedding of `args[1].trim().parse::<u32>()` (line 27): an optional `+`
sign followed by at least one decimal digit, valued below `2^32`; anything
else is a `ParseIntError`. -/
def parseU32 (s : String) : Option Nat :=
  let cs := trimChars s.toList
  let ds := match cs with
    | '+' :: rest => rest
    | _ => cs
  if ds = [] then none
  else if ds.all Char.isDigit then
    let v := ds.foldl (fun acc c => acc * 10 + (c.toNat - 48)) 0
    if v < u32Size then some v else none
  else none

/-- Outcome of the argument-handling front half of `main` (lines 17-35):
either the process exits early with a code and a diagnostic message, before
any input is read or any output written, or it proceeds into the pipeline
with the parsed tile size and the two file arguments. -/
inductive CliOutcome where
  | exited (code : Nat) (message : String)
  | proceed (tileSize : Nat) (inputFile outputFile : String)
deriving DecidableEq

/-- Embedding of lines 17-35 of `main`.  `args` is the full `env::args()`
vector including the program name.  A wrong argument count and a small tile
size print one line and `process::exit(1)`; a failed parse is the `expect`
panic, which terminates the process with code 101 and the panic's one-line
payload message. -/
def cliCheck (args : List String) : CliOutcome :=
  if args.length ≠ 4 then .exited 1 "Invalid argument count"
  else
    match parseU32 (args.getD 1 "") with
    | none => .exited 101 "TILE_SIZE expects a numeric value"
    | some t =>
      if t < 2 then .exited 1 "Invalid tile size (minimum 2)"
      else .proceed t (args.getD 2 "") (args.getD 3 "")

/-- A 1 × 1 source image holding one opaque red pixel. -/
def redDot : Image := ⟨1, 1, fun _ _ => ⟨255, 0, 0, 255⟩⟩

/-- A 2 × 1 opaque red source image (non-square, so its pattern tile is
shorter than the tile size). -/
def wideRed : Image := ⟨2, 1, fun _ _ => ⟨255, 0, 0, 255⟩⟩

/-- A source image whose width times tile size 2 overflows `u32`. -/
def hugeRow : Image := ⟨2 ^ 31, 1, fun _ _ => ⟨255, 0, 0, 255⟩⟩

/-- A degenerate source image of width 0 and height 5. -/
def emptyCol : Image := ⟨0, 5, fun _ _ => ⟨1, 2, 3, 255⟩⟩

/-! ### Basic lemmas about the embedded operations -/

theorem overlay_pix (b tp : Image) (ox oy u v : Nat) :
    (overlay b tp ox oy).pix u v =
      if ox ≤ u ∧ u < ox + min tp.width (b.width - ox) ∧
         oy ≤ v ∧ v < oy + min tp.height (b.height - oy)
      then blend (b.pix u v) (tp.pix (u - ox) (v - oy))
      else b.pix u v := rfl

theorem overlay_width (b tp : Image) (ox oy : Nat) :
    (overlay b tp ox oy).width = b.width := rfl

theorem overlay_height (b tp : Image) (ox oy : Nat) :
    (overlay b tp ox oy).height = b.height := rfl

theorem placeTile_width (src tile : Image) (t : Nat) (c : Image) (x y : Nat) :
    (placeTile src tile t c x y).width = c.width := rfl

theorem placeTile_height (src tile : Image) (t : Nat) (c : Image) (x y : Nat) :
    (placeTile src tile t c x y).height = c.height := rfl

theorem foldl_dims {α : Type} (f : Image → α → Image)
    (hf : ∀ c a, (f c a).width = c.width ∧ (f c a).height = c.height) :
    ∀ (l : List α) (c : Image),
      (List.foldl f c l).width = c.width ∧ (List.foldl f c l).height = c.height := by
  intro l
  induction l with
  | nil => exact fun c => ⟨rfl, rfl⟩
  | cons a l ih =>
    intro c
    have h1 := ih (f c a)
    have h2 := hf c a
    rw [List.foldl_cons]
    exact ⟨h1.1.trans h2.1, h1.2.trans h2.2⟩

theorem foldl_constant {α γ : Type} : ∀ (l : List α) (c : γ),
    List.foldl (fun c2 _ => c2) c l = c := by
  intro l
  induction l with
  | nil => exact fun c => rfl
  | cons a l ih => exact fun c => ih c

theorem foldl_flatMap_eq {α β γ : Type} (g : α → List β) (f : γ → β → γ) :
    ∀ (l : List α) (init : γ),
      List.foldl f init (l.flatMap g) =
        List.foldl (fun c x => List.foldl f c (g x)) init l := by
  intro l
  induction l with
  | nil => intro init; rfl
  | cons a l ih =>
    intro init
    simp only [List.flatMap_cons, List.foldl_append, List.foldl_cons, ih]

/-- The nested loop of `composeWithTile` is the fold of `placeTile` over the
coordinate list. -/
theorem composeWithTile_eq_fold (src tile : Image) (t : Nat) :
    composeWithTile src tile t =
      List.foldl (fun c p => placeTile src tile t c p.1 p.2)
        (mkCanvas (src.width * t % u32Size) (src.height * t % u32Size))
        (coords src.width src.height) := by
  unfold composeWithTile coords
  rw [foldl_flatMap_eq]
  congr 1
  funext c x
  rw [List.foldl_map]

theorem compose_dims (src : Image) (t : Nat) :
    (compose src t).width = src.width * t % u32Size ∧
    (compose src t).height = src.height * t % u32Size := by
  rw [compose, composeWithTile_eq_fold]
  exact foldl_dims (fun c p => placeTile src (patternTile src t) t c p.1 p.2)
    (fun c p => ⟨rfl, rfl⟩) (coords src.width src.height)
    (mkCanvas (src.width * t % u32Size) (src.height * t % u32Size))

/-! ### Rectangle arithmetic -/

theorem div_eq_of_rect {t x u : Nat} (h1 : x * t ≤ u) (h2 : u < x * t + t) :
    u / t = x := by
  have ht : 0 < t := by omega
  have hle : x ≤ u / t := (Nat.le_div_iff_mul_le ht).mpr h1
  have hlt : u / t < x + 1 := by
    refine (Nat.div_lt_iff_lt_mul ht).mpr ?_
    rw [Nat.succ_mul]
    omega
  omega

theorem sub_eq_mod_of_rect {t x u : Nat} (h1 : x * t ≤ u) (h2 : u < x * t + t) :
    u - x * t = u % t := by
  have ht : 0 < t := by omega
  have hx := div_eq_of_rect h1 h2
  have hdm := Nat.div_add_mod u t
  rw [hx] at hdm
  have hc : t * x = x * t := Nat.mul_comm t x
  omega

theorem mem_coords {w h : Nat} {p : Nat × Nat} :
    p ∈ coords w h ↔ p.1 < w ∧ p.2 < h := by
  cases p with
  | mk a b =>
    simp only [coords, List.mem_flatMap, List.mem_map, List.mem_range, Prod.mk.injEq]
    constructor
    · rintro ⟨x, hx, y, hy, h1, h2⟩
      subst h1; subst h2
      exact ⟨hx, hy⟩
    · rintro ⟨h1, h2⟩
      exact ⟨a, h1, b, h2, rfl, rfl⟩

/-! ### Blend lemmas -/

theorem blend_alpha_of_opaque (bg fg : Rgba) (h : bg.a = 255) :
    (blend bg fg).a = 255 := by
  have hb : (bg.a : ℚ) = 255 := by rw [h]; norm_num
  simp only [blend, hb]
  have hAF : (255 : ℚ) / 255 + (fg.a : ℚ) / 255 - 255 / 255 * ((fg.a : ℚ) / 255) = 1 := by
    ring_nf
  rw [hAF]
  rw [if_neg (by norm_num : ¬ ((1:ℚ) = 0))]
  show (Int.floor ((255:ℚ) * 1)).toNat = 255
  norm_num
  decide

theorem blend_transparent_of_ne (fg : Rgba) (h : fg.a ≠ 0) :
    blend transparent fg = fg := by
  have hq : ((fg.a : ℚ)) ≠ 0 := Nat.cast_ne_zero.mpr h
  have hq2 : ((fg.a : ℚ)) / 255 ≠ 0 := div_ne_zero hq (by norm_num)
  simp only [blend, transparent]
  norm_num
  rw [if_neg h]
  have hch : ∀ n : Nat,
      (Int.floor ((255:ℚ) * ((n : ℚ) / 255 * ((fg.a : ℚ) / 255) / ((fg.a : ℚ) / 255)))).toNat = n := by
    intro n
    rw [mul_div_cancel_right₀ _ hq2]
    rw [mul_comm, div_mul_cancel₀ _ (by norm_num : (255:ℚ) ≠ 0)]
    rw [Int.floor_natCast]
    exact Int.toNat_natCast n
  have ha : (Int.floor ((255:ℚ) * ((fg.a : ℚ) / 255))).toNat = fg.a := by
    rw [mul_comm, div_mul_cancel₀ _ (by norm_num : (255:ℚ) ≠ 0)]
    rw [Int.floor_natCast]
    exact Int.toNat_natCast fg.a
  rw [hch fg.r, hch fg.g, hch fg.b, ha]

theorem blend_transparent_alpha (fg : Rgba) :
    (blend transparent fg).a = fg.a := by
  by_cases h : fg.a = 0
  · simp only [blend, transparent, h]
    norm_num
  · rw [blend_transparent_of_ne fg h]

/-! ### Pattern-tile dimension bounds -/

theorem roundQ_le_of_le {q : ℚ} {n : Nat} (h : q ≤ (n : ℚ)) : roundQ q ≤ n := by
  unfold roundQ
  rw [Int.toNat_le]
  have hlt : q + 1 / 2 < ((((n : ℤ) + 1) : ℤ) : ℚ) := by push_cast; linarith
  have := Int.floor_lt.mpr hlt
  omega

theorem patternTile_dims (src : Image) (t : Nat)
    (hw : 1 ≤ src.width) (hh : 1 ≤ src.height) (ht : 1 ≤ t) :
    (patternTile src t).width ≤ t ∧ (patternTile src t).height ≤ t := by
  have hw0 : src.width ≠ 0 := by omega
  have hh0 : src.height ≠ 0 := by omega
  have hwq : (0:ℚ) < (src.width : ℚ) := by exact_mod_cast Nat.pos_of_ne_zero hw0
  have hhq : (0:ℚ) < (src.height : ℚ) := by exact_mod_cast Nat.pos_of_ne_zero hh0
  show (resizeDimensions src.width src.height t t).1 ≤ t ∧
       (resizeDimensions src.width src.height t t).2 ≤ t
  unfold resizeDimensions
  rw [if_neg (by tauto), if_neg (by tauto : ¬ src.width = 0), if_neg (by tauto : ¬ src.height = 0)]
  have hbw : (src.width : ℚ) * min ((t : ℚ) / (src.width : ℚ)) ((t : ℚ) / (src.height : ℚ)) ≤ (t : ℚ) := by
    calc (src.width : ℚ) * min ((t : ℚ) / (src.width : ℚ)) ((t : ℚ) / (src.height : ℚ))
        ≤ (src.width : ℚ) * ((t : ℚ) / (src.width : ℚ)) :=
          mul_le_mul_of_nonneg_left (min_le_left _ _) (le_of_lt hwq)
      _ = (t : ℚ) := by field_simp
  have hbh : (src.height : ℚ) * min ((t : ℚ) / (src.width : ℚ)) ((t : ℚ) / (src.height : ℚ)) ≤ (t : ℚ) := by
    calc (src.height : ℚ) * min ((t : ℚ) / (src.width : ℚ)) ((t : ℚ) / (src.height : ℚ))
        ≤ (src.height : ℚ) * ((t : ℚ) / (src.height : ℚ)) :=
          mul_le_mul_of_nonneg_left (min_le_right _ _) (le_of_lt hhq)
      _ = (t : ℚ) := by field_simp
  exact ⟨max_le ht (roundQ_le_of_le hbw), max_le ht (roundQ_le_of_le hbh)⟩

/-! ### Pointwise effect of one loop iteration -/

theorem placeTile_pix_self (src tile : Image) (t : Nat) (c : Image) (u v : Nat)
    (htw : tile.width ≤ t) (hth : tile.height ≤ t)
    (hcw : c.width = src.width * t) (hch : c.height = src.height * t)
    (hWo : src.width * t < u32Size) (hHo : src.height * t < u32Size)
    (hu : u < src.width * t) (hv : v < src.height * t) :
    (placeTile src tile t c (u / t) (v / t)).pix u v =
      pointUpdate src tile t u v (c.pix u v) := by
  have ht : 0 < t := by
    rcases Nat.eq_zero_or_pos t with h | h
    · subst h; rw [Nat.mul_zero] at hu; omega
    · exact h
  set x := u / t with hx
  set y := v / t with hy
  have hxu1 : x * t ≤ u := Nat.div_mul_le_self u t
  have hxu2 : u < x * t + t := by
    have hdm := Nat.div_add_mod u t
    rw [← hx] at hdm
    have hmt := Nat.mod_lt u ht
    have hc2 : t * x = x * t := Nat.mul_comm t x
    omega
  have hyv1 : y * t ≤ v := Nat.div_mul_le_self v t
  have hyv2 : v < y * t + t := by
    have hdm := Nat.div_add_mod v t
    rw [← hy] at hdm
    have hmt := Nat.mod_lt v ht
    have hc2 : t * y = y * t := Nat.mul_comm t y
    omega
  have hxW : x < src.width := (Nat.div_lt_iff_lt_mul ht).mpr hu
  have hyH : y < src.height := (Nat.div_lt_iff_lt_mul ht).mpr hv
  have hxtlt : x * t < u32Size := by omega
  have hytlt : y * t < u32Size := by omega
  have hroomx : x * t + t ≤ src.width * t := by
    have h1 : (x + 1) * t ≤ src.width * t := Nat.mul_le_mul_right t hxW
    rw [Nat.succ_mul] at h1
    exact h1
  have hroomy : y * t + t ≤ src.height * t := by
    have h1 : (y + 1) * t ≤ src.height * t := Nat.mul_le_mul_right t hyH
    rw [Nat.succ_mul] at h1
    exact h1
  have hsubx : u - x * t = u % t := sub_eq_mod_of_rect hxu1 hxu2
  have hsuby : v - y * t = v % t := sub_eq_mod_of_rect hyv1 hyv2
  unfold placeTile
  rw [Nat.mod_eq_of_lt hxtlt, Nat.mod_eq_of_lt hytlt]
  rw [overlay_pix, overlay_pix]
  simp only [overlay_width, overlay_height, colorTile]
  have hminc : min t (c.width - x * t) = t := by rw [hcw]; omega
  have hminc2 : min t (c.height - y * t) = t := by rw [hch]; omega
  have hmintw : min tile.width (c.width - x * t) = tile.width := by rw [hcw]; omega
  have hminth : min tile.height (c.height - y * t) = tile.height := by rw [hch]; omega
  rw [hminc, hminc2, hmintw, hminth]
  rw [if_pos ⟨hxu1, by omega, hyv1, by omega⟩]
  have hcond : (x * t ≤ u ∧ u < x * t + tile.width ∧ y * t ≤ v ∧ v < y * t + tile.height) ↔
      (u % t < tile.width ∧ v % t < tile.height) := by
    constructor
    · rintro ⟨_, h2, _, h4⟩
      constructor <;> omega
    · rintro ⟨h1, h2⟩
      exact ⟨hxu1, by omega, hyv1, by omega⟩
  simp only [hcond, hsubx, hsuby]
  rfl

theorem placeTile_pix_of_not_rect (src tile : Image) (t : Nat) (c : Image) (x y u v : Nat)
    (htw : tile.width ≤ t) (hth : tile.height ≤ t)
    (hxo : x * t < u32Size) (hyo : y * t < u32Size)
    (hnr : ¬ tileRect t x y u v) :
    (placeTile src tile t c x y).pix u v = c.pix u v := by
  unfold placeTile
  rw [Nat.mod_eq_of_lt hxo, Nat.mod_eq_of_lt hyo]
  rw [overlay_pix, overlay_pix]
  simp only [overlay_width, overlay_height, colorTile]
  unfold tileRect at hnr
  have hsm : (x + 1) * t = x * t + t := Nat.succ_mul x t
  have hsm2 : (y + 1) * t = y * t + t := Nat.succ_mul y t
  have hmt1 : min t (c.width - x * t) ≤ t := Nat.min_le_left _ _
  have hmt2 : min t (c.height - y * t) ≤ t := Nat.min_le_left _ _
  have hmt3 : min tile.width (c.width - x * t) ≤ tile.width := Nat.min_le_left _ _
  have hmt4 : min tile.height (c.height - y * t) ≤ tile.height := Nat.min_le_left _ _
  rw [if_neg, if_neg]
  · rintro ⟨h1, h2, h3, h4⟩
    exact hnr ⟨h1, by omega, h3, by omega⟩
  · rintro ⟨h1, h2, h3, h4⟩
    exact hnr ⟨h1, by omega, h3, by omega⟩

/-! ### The fold over all placements, pointwise -/

theorem not_rect_of_ne {t x y u v : Nat} (hne : ¬ (x = u / t ∧ y = v / t)) :
    ¬ tileRect t x y u v := by
  intro hr
  obtain ⟨h1, h2, h3, h4⟩ := hr
  rw [Nat.succ_mul] at h2 h4
  exact hne ⟨(div_eq_of_rect h1 h2).symm, (div_eq_of_rect h3 h4).symm⟩

theorem foldl_place_pix (src tile : Image) (t : Nat)
    (htw : tile.width ≤ t) (hth : tile.height ≤ t)
    (hWo : src.width * t < u32Size) (hHo : src.height * t < u32Size)
    (u v : Nat) (hu : u < src.width * t) (hv : v < src.height * t) :
    ∀ (l : List (Nat × Nat)), (∀ p ∈ l, p.1 < src.width ∧ p.2 < src.height) →
      ∀ (c : Image), c.width = src.width * t → c.height = src.height * t →
      (List.foldl (fun c2 p => placeTile src tile t c2 p.1 p.2) c l).pix u v =
        (pointUpdate src tile t u v)^[l.count (u / t, v / t)] (c.pix u v) := by
  intro l
  induction l with
  | nil =>
    intro _ c _ _
    simp
  | cons p l ih =>
    rcases p with ⟨a, b⟩
    intro hmem c hcw hch
    have hp : a < src.width ∧ b < src.height := hmem (a, b) (List.mem_cons_self _ _)
    have hxo : a * t < u32Size := by
      have h1 : (a + 1) * t ≤ src.width * t := Nat.mul_le_mul_right t hp.1
      rw [Nat.succ_mul] at h1
      omega
    have hyo : b * t < u32Size := by
      have h1 : (b + 1) * t ≤ src.height * t := Nat.mul_le_mul_right t hp.2
      rw [Nat.succ_mul] at h1
      omega
    have hmem2 : ∀ q ∈ l, q.1 < src.width ∧ q.2 < src.height :=
      fun q hq => hmem q (List.mem_cons_of_mem _ hq)
    simp only [List.foldl_cons]
    by_cases hpe : (a, b) = ((u / t : Nat), (v / t : Nat))
    · rw [Prod.mk.injEq] at hpe
      obtain ⟨ha, hb⟩ := hpe
      subst ha
      subst hb
      rw [ih hmem2 (placeTile src tile t c (u / t) (v / t))
        (by rw [placeTile_width]; exact hcw) (by rw [placeTile_height]; exact hch)]
      rw [placeTile_pix_self src tile t c u v htw hth hcw hch hWo hHo hu hv]
      rw [List.count_cons_self, Function.iterate_succ_apply]
    · have hne2 : ¬ (a = u / t ∧ b = v / t) := by
        intro hc2
        exact hpe (by rw [Prod.mk.injEq]; exact hc2)
      rw [ih hmem2 (placeTile src tile t c a b)
        (by rw [placeTile_width]; exact hcw) (by rw [placeTile_height]; exact hch)]
      rw [placeTile_pix_of_not_rect src tile t c a b u v htw hth hxo hyo (not_rect_of_ne hne2)]
      rw [List.count_cons_of_ne (Ne.symm hpe)]

theorem count_map_pair {h x y : Nat} (hy : y < h) :
    ((List.range h).map (fun y2 => ((x, y2) : Nat × Nat))).count (x, y) = 1 := by
  induction h with
  | zero => omega
  | succ h ih =>
    rw [List.range_succ, List.map_append, List.count_append]
    by_cases hyh : y = h
    · subst hyh
      have h0 : ((List.range y).map (fun y2 => ((x, y2) : Nat × Nat))).count (x, y) = 0 := by
        rw [List.count_eq_zero]
        intro hm
        rw [List.mem_map] at hm
        obtain ⟨y2, hy2, he⟩ := hm
        rw [Prod.mk.injEq] at he
        rw [List.mem_range] at hy2
        omega
      have h1 : (List.map (fun y2 => ((x, y2) : Nat × Nat)) [y]).count (x, y) = 1 := by
        simp
      rw [h0, h1]
    · have h0 : (List.map (fun y2 => ((x, y2) : Nat × Nat)) [h]).count (x, y) = 0 := by
        rw [List.count_eq_zero]
        intro hm
        rw [List.mem_map] at hm
        obtain ⟨y2, hy2, he⟩ := hm
        rw [Prod.mk.injEq] at he
        rw [List.mem_singleton] at hy2
        omega
      rw [h0, ih (by omega)]

theorem count_coords {w h x y : Nat} (hx : x < w) (hy : y < h) :
    (coords w h).count (x, y) = 1 := by
  induction w with
  | zero => omega
  | succ w ih =>
    show ((List.range (w + 1)).flatMap (fun x2 => (List.range h).map (fun y2 => (x2, y2)))).count (x, y) = 1
    rw [List.range_succ, List.flatMap_append, List.count_append]
    simp only [List.flatMap_cons, List.flatMap_nil, List.append_nil]
    by_cases hxw : x = w
    · subst hxw
      have h0 : ((List.range x).flatMap (fun x2 => (List.range h).map (fun y2 => (x2, y2)))).count (x, y) = 0 := by
        rw [List.count_eq_zero]
        intro hmem
        have := mem_coords.mp hmem
        omega
      have h1 : ((List.range h).map (fun y2 => (x, y2))).count (x, y) = 1 :=
        count_map_pair hy
      rw [h0, h1]
    · have hxlt : x < w := by omega
      have h1 : ((List.range w).flatMap (fun x2 => (List.range h).map (fun y2 => (x2, y2)))).count (x, y) = 1 :=
        ih hxlt
      have h0 : ((List.range h).map (fun y2 => (w, y2))).count (x, y) = 0 := by
        rw [List.count_eq_zero]
        intro hmem
        rw [List.mem_map] at hmem
        obtain ⟨y2, _, heq⟩ := hmem
        rw [Prod.mk.injEq] at heq
        exact hxw heq.1.symm
      rw [h0, h1]

theorem compose_pix (src : Image) (t : Nat)
    (hWo : src.width * t < u32Size) (hHo : src.height * t < u32Size)
    (u v : Nat) (hu : u < src.width * t) (hv : v < src.height * t) :
    (compose src t).pix u v = pointUpdate src (patternTile src t) t u v transparent := by
  have ht : 0 < t := by
    rcases Nat.eq_zero_or_pos t with h | h
    · subst h; rw [Nat.mul_zero] at hu; omega
    · exact h
  have hW : 0 < src.width := by
    rcases Nat.eq_zero_or_pos src.width with h | h
    · rw [h, Nat.zero_mul] at hu; omega
    · exact h
  have hH : 0 < src.height := by
    rcases Nat.eq_zero_or_pos src.height with h | h
    · rw [h, Nat.zero_mul] at hv; omega
    · exact h
  have hdims := patternTile_dims src t hW hH ht
  rw [compose, composeWithTile_eq_fold]
  have hcd : (mkCanvas (src.width * t % u32Size) (src.height * t % u32Size)).width = src.width * t :=
    Nat.mod_eq_of_lt hWo
  have hcd2 : (mkCanvas (src.width * t % u32Size) (src.height * t % u32Size)).height = src.height * t :=
    Nat.mod_eq_of_lt hHo
  rw [foldl_place_pix src (patternTile src t) t hdims.1 hdims.2 hWo hHo u v hu hv
    (coords src.width src.height) (fun p hp => mem_coords.mp hp) _ hcd hcd2]
  rw [count_coords ((Nat.div_lt_iff_lt_mul ht).mpr hu) ((Nat.div_lt_iff_lt_mul ht).mpr hv)]
  rw [Function.iterate_one]
  rfl

/-! ### The claims -/

/-- C1, counterexample.  The claim fails as stated: a source of width `2^31`
with tile size 2 is a valid input (width ≥ 1, height ≥ 1, tile size ≥ 2), but
the `u32` product at line 86 wraps, so the canvas is allocated with width
`2^31 * 2 mod 2^32 = 0`, not `2^31 * 2`. -/
theorem claim_C1_cex :
    ¬ ((compose hugeRow 2).width = hugeRow.width * 2 ∧
       (compose hugeRow 2).height = hugeRow.height * 2) := by
  intro h
  have hw := (compose_dims hugeRow 2).1
  rw [hw] at h
  have hcontra := h.1
  norm_num [hugeRow, u32Size] at hcontra

/-- C1, amended.  For every valid input (width ≥ 1, height ≥ 1,
tile size ≥ 2) whose products `width * tile_size` and `height * tile_size` do
not exceed `u32::MAX`, the output image has width exactly
`width * tile_size` and height exactly `height * tile_size`. -/
theorem claim_C1 (src : Image) (t : Nat) (hw : 1 ≤ src.width) (hh : 1 ≤ src.height)
    (ht : 2 ≤ t) (hWo : src.width * t < u32Size) (hHo : src.height * t < u32Size) :
    (compose src t).width = src.width * t ∧ (compose src t).height = src.height * t := by
  obtain ⟨h1, h2⟩ := compose_dims src t
  rw [h1, h2, Nat.mod_eq_of_lt hWo, Nat.mod_eq_of_lt hHo]
  exact ⟨rfl, rfl⟩

/-- C1, witness: the amended claim at the 1 × 1 red source with tile size 2. -/
theorem claim_C1_witness :
    (compose redDot 2).width = redDot.width * 2 ∧ (compose redDot 2).height = redDot.height * 2 :=
  claim_C1 redDot 2 (by decide) (by decide) (by decide)
    (by norm_num [redDot, u32Size]) (by norm_num [redDot, u32Size])

/-- C2, counterexample.  The claim fails as stated: for the opaque red 2 × 1
source with tile size 4 the pattern tile is 4 × 2 (aspect-preserving
`thumbnail`), so canvas pixel (0, 3) lies in the tile rectangle of source
pixel (0, 0) but receives no pattern-tile write; only the 127-alpha colour
tile is blended over the transparent canvas there, leaving alpha 127, not
fully opaque. -/
theorem claim_C2_cex :
    tileRect 4 0 0 0 3 ∧ ((compose wideRed 4).pix 0 3).a ≠ 255 :=
  of_decide_eq_true (by with_unfolding_all rfl)

/-- C2, amended.  Without overflow, for every canvas pixel `(u, v)` (with an
opaque pattern tile, as the claim assumes): if the point falls under the
pattern tile's extent within its rectangle, the composed pixel is fully
opaque; otherwise the composed pixel has alpha exactly 127 (semi-transparent,
written by the colour tile only).  In both cases the pixel is not left at its
initial transparent value.  The claim's full-opacity guarantee holds on all of
the rectangle only when the pattern tile is exactly `tile_size × tile_size`,
which the aspect-preserving resize yields only for square sources. -/
theorem claim_C2 (src : Image) (t u v : Nat)
    (hWo : src.width * t < u32Size) (hHo : src.height * t < u32Size)
    (hu : u < src.width * t) (hv : v < src.height * t)
    (hop : ∀ i, i < (patternTile src t).width → ∀ j, j < (patternTile src t).height →
      ((patternTile src t).pix i j).a = 255) :
    (u % t < (patternTile src t).width ∧ v % t < (patternTile src t).height →
      ((compose src t).pix u v).a = 255 ∧ (compose src t).pix u v ≠ transparent) ∧
    (¬ (u % t < (patternTile src t).width ∧ v % t < (patternTile src t).height) →
      ((compose src t).pix u v).a = 127 ∧ (compose src t).pix u v ≠ transparent) := by
  rw [compose_pix src t hWo hHo u v hu hv]
  simp only [pointUpdate]
  constructor
  · intro hcov
    rw [if_pos hcov]
    have htp : ((patternTile src t).pix (u % t) (v % t)).a = 255 := hop _ hcov.1 _ hcov.2
    rw [blend_transparent_of_ne _ (by rw [htp]; omega)]
    have ha := blend_alpha_of_opaque ((patternTile src t).pix (u % t) (v % t))
      (colorOf (src.pix (u / t) (v / t))) htp
    refine ⟨ha, fun he => ?_⟩
    rw [he] at ha
    simp [transparent] at ha
  · intro hncov
    rw [if_neg hncov]
    have ha := blend_transparent_alpha (colorOf (src.pix (u / t) (v / t)))
    refine ⟨ha, fun he => ?_⟩
    rw [he] at ha
    simp [transparent, colorOf] at ha

/-- C2, witness: at the 2 × 1 red source with tile size 4, canvas pixel
(0, 0) is covered by the pattern tile and comes out fully opaque. -/
theorem claim_C2_witness : ((compose wideRed 4).pix 0 0).a = 255 :=
  (((claim_C2 wideRed 4 0 0 (by norm_num [wideRed, u32Size]) (by norm_num [wideRed, u32Size])
      (by norm_num [wideRed]) (by norm_num [wideRed])
      (of_decide_eq_true (by with_unfolding_all rfl))).1
    (of_decide_eq_true (by with_unfolding_all rfl)))).1

/-- C3.  For every source pixel `(x, y)`, the colour tile built for it in the
loop body is a `tile_size × tile_size` image whose every pixel is
`(R, G, B, 127)` with `(R, G, B)` the source pixel's colour channels,
independently of the tile size; and the loop body is exactly the pattern-tile
overlay followed by the overlay of this colour tile. -/
theorem claim_C3 (src tile c : Image) (t x y u v : Nat) (hu : u < t) (hv : v < t) :
    (colorTile (src.pix x y) t).width = t ∧
    (colorTile (src.pix x y) t).height = t ∧
    (colorTile (src.pix x y) t).pix u v =
      ⟨(src.pix x y).r, (src.pix x y).g, (src.pix x y).b, 127⟩ ∧
    placeTile src tile t c x y =
      overlay (overlay c tile (x * t % u32Size) (y * t % u32Size))
        (colorTile (src.pix x y) t) (x * t % u32Size) (y * t % u32Size) :=
  ⟨rfl, rfl, rfl, rfl⟩

/-- C3, witness: the colour tile of the red source pixel at tile size 3,
sampled at (1, 2). -/
theorem claim_C3_witness :
    (colorTile (redDot.pix 0 0) 3).pix 1 2 =
      ⟨(redDot.pix 0 0).r, (redDot.pix 0 0).g, (redDot.pix 0 0).b, 127⟩ :=
  (claim_C3 redDot redDot redDot 3 0 0 1 2 (by decide) (by decide)).2.2.1

/-- C4.  The pattern tile is the aspect-preserving resize of the source into
the `tile_size × tile_size` bounding box (its dimensions are exactly the
`resize_dimensions` of the crate and never exceed the tile size in either
axis), and `compose` is by definition the per-pixel loop run with that one
tile, computed once before the loop and shared unmodified by every
placement. -/
theorem claim_C4 (src : Image) (t : Nat) (hw : 1 ≤ src.width) (hh : 1 ≤ src.height)
    (ht : 1 ≤ t) :
    (patternTile src t).width = (resizeDimensions src.width src.height t t).1 ∧
    (patternTile src t).height = (resizeDimensions src.width src.height t t).2 ∧
    (patternTile src t).width ≤ t ∧ (patternTile src t).height ≤ t ∧
    compose src t = composeWithTile src (patternTile src t) t := by
  obtain ⟨h1, h2⟩ := patternTile_dims src t hw hh ht
  exact ⟨rfl, rfl, h1, h2, rfl⟩

/-- C4, witness: the pattern tile of the 2 × 1 source at tile size 4 fits
within the 4 × 4 bounding box. -/
theorem claim_C4_witness :
    (patternTile wideRed 4).width ≤ 4 ∧ (patternTile wideRed 4).height ≤ 4 :=
  ⟨(claim_C4 wideRed 4 (by decide) (by decide) (by decide)).2.2.1,
   (claim_C4 wideRed 4 (by decide) (by decide) (by decide)).2.2.2.1⟩

/-- C5.  (a) A loop iteration for source pixel `(x, y)` leaves every canvas
pixel outside the rectangle `[x·t, (x+1)·t) × [y·t, (y+1)·t)` unchanged;
(b) rectangles of distinct source pixels are disjoint; (c) folding the
placements in any order (any permutation of the visited coordinate list)
produces the same canvas, pixel for pixel, as `compose`. -/
theorem claim_C5 (src : Image) (t : Nat) (l : List (Nat × Nat)) (ht : 1 ≤ t)
    (hWo : src.width * t < u32Size) (hHo : src.height * t < u32Size) :
    (∀ (c : Image) (x y u v : Nat), x < src.width → y < src.height →
        ¬ tileRect t x y u v →
        (placeTile src (patternTile src t) t c x y).pix u v = c.pix u v) ∧
    (∀ x y x2 y2 u v : Nat, ¬ (x = x2 ∧ y = y2) →
        ¬ (tileRect t x y u v ∧ tileRect t x2 y2 u v)) ∧
    (l.Perm (coords src.width src.height) →
      ∀ u v, u < src.width * t → v < src.height * t →
        (List.foldl (fun c p => placeTile src (patternTile src t) t c p.1 p.2)
            (mkCanvas (src.width * t % u32Size) (src.height * t % u32Size)) l).pix u v =
          (compose src t).pix u v) := by
  refine ⟨?_, ?_, ?_⟩
  · intro c x y u v hx hy hnr
    have hW : 0 < src.width := by omega
    have hH : 0 < src.height := by omega
    have hdims := patternTile_dims src t hW hH ht
    have hxo : x * t < u32Size := by
      have h1 : (x + 1) * t ≤ src.width * t := Nat.mul_le_mul_right t hx
      rw [Nat.succ_mul] at h1
      omega
    have hyo : y * t < u32Size := by
      have h1 : (y + 1) * t ≤ src.height * t := Nat.mul_le_mul_right t hy
      rw [Nat.succ_mul] at h1
      omega
    exact placeTile_pix_of_not_rect src _ t c x y u v hdims.1 hdims.2 hxo hyo hnr
  · intro x y x2 y2 u v hne hboth
    obtain ⟨hr1, hr2⟩ := hboth
    obtain ⟨h1, h2, h3, h4⟩ := hr1
    obtain ⟨h5, h6, h7, h8⟩ := hr2
    rw [Nat.succ_mul] at h2 h4 h6 h8
    have e1 := div_eq_of_rect h1 h2
    have e2 := div_eq_of_rect h3 h4
    have e3 := div_eq_of_rect h5 h6
    have e4 := div_eq_of_rect h7 h8
    exact hne ⟨by omega, by omega⟩
  · intro hperm u v hu hv
    have ht0 : 0 < t := by omega
    have hW : 0 < src.width := by
      rcases Nat.eq_zero_or_pos src.width with h | h
      · rw [h, Nat.zero_mul] at hu; omega
      · exact h
    have hH : 0 < src.height := by
      rcases Nat.eq_zero_or_pos src.height with h | h
      · rw [h, Nat.zero_mul] at hv; omega
      · exact h
    have hdims := patternTile_dims src t hW hH ht
    have hmemb : ∀ p ∈ l, p.1 < src.width ∧ p.2 < src.height :=
      fun p hp => mem_coords.mp (hperm.subset hp)
    rw [foldl_place_pix src (patternTile src t) t hdims.1 hdims.2 hWo hHo u v hu hv
      l hmemb _ (Nat.mod_eq_of_lt hWo) (Nat.mod_eq_of_lt hHo)]
    rw [compose_pix src t hWo hHo u v hu hv]
    have hcnt : l.count ((u / t : Nat), (v / t : Nat)) =
        (coords src.width src.height).count ((u / t : Nat), (v / t : Nat)) := by
      unfold List.count
      exact hperm.countP_eq _
    rw [hcnt]
    rw [count_coords ((Nat.div_lt_iff_lt_mul ht0).mpr hu) ((Nat.div_lt_iff_lt_mul ht0).mpr hv)]
    rw [Function.iterate_one]
    rfl

/-- C5, witness: order-independence at the 1 × 1 source with tile size 2,
with the coordinate list itself as the permutation. -/
theorem claim_C5_witness :
    (List.foldl (fun c p => placeTile redDot (patternTile redDot 2) 2 c p.1 p.2)
        (mkCanvas (redDot.width * 2 % u32Size) (redDot.height * 2 % u32Size)) (coords 1 1)).pix 0 0 =
      (compose redDot 2).pix 0 0 :=
  (claim_C5 redDot 2 (coords 1 1) (by decide) (by norm_num [redDot, u32Size])
    (by norm_num [redDot, u32Size])).2.2 (List.Perm.refl _) 0 0
    (by norm_num [redDot]) (by norm_num [redDot])

/-- C6, counterexample.  The claim fails as stated: the code has no
`EmptySourceImage` check anywhere; on a source of width 0 and height 5 with
tile size 2 the compositor runs to completion and produces a degenerate
0 × 10 output image instead of failing. -/
theorem claim_C6_cex :
    (compose emptyCol 2).width = 0 ∧ (compose emptyCol 2).height = 10 := by
  obtain ⟨h1, h2⟩ := compose_dims emptyCol 2
  rw [h1, h2]
  norm_num [emptyCol, u32Size]

/-- C6, amended.  For every source image with width 0 or height 0 the
compositor does not fail: the per-pixel loop body never runs, and the result
is exactly the freshly allocated (fully transparent) canvas, which is empty
in the degenerate axis. -/
theorem claim_C6 (src : Image) (t : Nat) (h : src.width = 0 ∨ src.height = 0) :
    compose src t = mkCanvas (src.width * t % u32Size) (src.height * t % u32Size) ∧
    ((compose src t).width = 0 ∨ (compose src t).height = 0) := by
  constructor
  · rcases h with h | h
    · rw [compose, composeWithTile, h]
      rw [List.range_zero, List.foldl_nil]
    · rw [compose, composeWithTile, h]
      simp only [List.range_zero, List.foldl_nil]
      rw [foldl_constant]
  · rcases h with h | h
    · left
      rw [(compose_dims src t).1, h, Nat.zero_mul, Nat.zero_mod]
    · right
      rw [(compose_dims src t).2, h, Nat.zero_mul, Nat.zero_mod]

/-- C6, witness: the 0 × 5 source with tile size 3 yields the untouched empty
canvas. -/
theorem claim_C6_witness :
    compose emptyCol 3 = mkCanvas (emptyCol.width * 3 % u32Size) (emptyCol.height * 3 % u32Size) :=
  (claim_C6 emptyCol 3 (Or.inl (by decide))).1

/-- C7.  Every invocation with a wrong argument count, a tile-size argument
that fails to parse as a `u32`, or a tile size below 2 makes the front half of
`main` terminate the process with a nonzero exit code (1 for the two explicit
checks, 101 for the parse panic) and a single diagnostic message, and control
never reaches the pipeline that writes the output file (the outcome is never
`proceed`). -/
theorem claim_C7 (args : List String)
    (h : args.length ≠ 4 ∨ parseU32 (args.getD 1 "") = none ∨
         (∃ ts, parseU32 (args.getD 1 "") = some ts ∧ ts < 2)) :
    (∃ code msg, cliCheck args = CliOutcome.exited code msg ∧ code ≠ 0) ∧
    (∀ ts i o, cliCheck args ≠ CliOutcome.proceed ts i o) := by
  have hex : ∃ code msg, cliCheck args = CliOutcome.exited code msg ∧ code ≠ 0 := by
    unfold cliCheck
    by_cases hlen : args.length = 4
    · rw [if_neg (by omega)]
      rcases h with h | h | ⟨ts, hts, hlt⟩
      · exact absurd hlen h
      · rw [h]
        exact ⟨101, _, rfl, by omega⟩
      · simp only [hts]
        rw [if_pos hlt]
        exact ⟨1, _, rfl, by omega⟩
    · rw [if_pos hlen]
      exact ⟨1, _, rfl, by omega⟩
  refine ⟨hex, ?_⟩
  obtain ⟨c, m, he, _⟩ := hex
  intro ts i o
  rw [he]
  intro hco
  exact CliOutcome.noConfusion hco

/-- C7, witness: tile size 1 exits with a nonzero code before any output. -/
theorem claim_C7_witness :
    ∃ code msg,
      cliCheck ["MosaicMaker", "1", "input.png", "output.png"] = CliOutcome.exited code msg ∧
      code ≠ 0 :=
  (claim_C7 ["MosaicMaker", "1", "input.png", "output.png"]
    (Or.inr (Or.inr ⟨1, of_decide_eq_true (by with_unfolding_all rfl), by omega⟩))).1

/-- C8.  For the single opaque red pixel source and tile size 4: the output is
4 × 4; the pattern tile (the 4 × 4 thumbnail of the 1 × 1 red image) is solid
opaque red; every output pixel is the source-over blend of the flat
`(255, 0, 0, 127)` colour tile over that solid red, which is fully opaque red
`(255, 0, 0, 255)`. -/
theorem claim_C8 :
    (compose redDot 4).width = 4 ∧ (compose redDot 4).height = 4 ∧
    (∀ u, u < 4 → ∀ v, v < 4 →
      (patternTile redDot 4).pix u v = ⟨255, 0, 0, 255⟩ ∧
      (compose redDot 4).pix u v = blend ⟨255, 0, 0, 255⟩ ⟨255, 0, 0, 127⟩ ∧
      (compose redDot 4).pix u v = ⟨255, 0, 0, 255⟩) :=
  of_decide_eq_true (by with_unfolding_all rfl)

/-- C8, witness: the pixel (1, 2) of the composed 4 × 4 output. -/
theorem claim_C8_witness :
    (compose redDot 4).pix 1 2 = ⟨255, 0, 0, 255⟩ :=
  (claim_C8.2.2 1 (by decide) 2 (by decide)).2.2

/-- C9.  The compositor is deterministic: two runs on equal source images
with equal tile sizes yield identical pattern tiles and identical outputs
(the embedded pipeline of lines 80-105 is a pure function of its inputs; it
consults no randomness, time, or other ambient state). -/
theorem claim_C9 (src1 src2 : Image) (t1 t2 : Nat) (hs : src1 = src2) (ht : t1 = t2) :
    patternTile src1 t1 = patternTile src2 t2 ∧ compose src1 t1 = compose src2 t2 := by
  subst hs
  subst ht
  exact ⟨rfl, rfl⟩

/-- C9, witness: two runs at the 1 × 1 red source and tile size 2. -/
theorem claim_C9_witness :
    patternTile redDot 2 = patternTile redDot 2 ∧ compose redDot 2 = compose redDot 2 :=
  claim_C9 redDot redDot 2 2 rfl rfl

/-- C10.  Canvas dimensions are the unchecked 32-bit products: the allocated
width and height are exactly `width * tile_size mod 2^32` and
`height * tile_size mod 2^32` for every input (no guard rejects overflowing
products), and the exact-dimension guarantee holds whenever the true product
stays below `2^32`. -/
theorem claim_C10 (src : Image) (t : Nat) :
    (compose src t).width = src.width * t % u32Size ∧
    (compose src t).height = src.height * t % u32Size ∧
    (src.width * t < u32Size → (compose src t).width = src.width * t) ∧
    (src.height * t < u32Size → (compose src t).height = src.height * t) := by
  obtain ⟨h1, h2⟩ := compose_dims src t
  exact ⟨h1, h2, fun h => by rw [h1, Nat.mod_eq_of_lt h],
    fun h => by rw [h2, Nat.mod_eq_of_lt h]⟩

/-- C10, witness: the wrapped width at the overflowing source and the exact
height where no overflow occurs. -/
theorem claim_C10_witness :
    (compose hugeRow 2).width = hugeRow.width * 2 % u32Size ∧
    (compose hugeRow 2).height = hugeRow.height * 2 :=
  ⟨(claim_C10 hugeRow 2).1, (claim_C10 hugeRow 2).2.2.2 (by norm_num [hugeRow, u32Size])⟩

end MosaicMaker
